import Mathlib

/-!
Verification of the delta-synchronization engine (GSet / GCounter / AWSet CRDTs,
Bloom filter, Baseline and Buckets sync protocols, telemetry tracker).

The Rust sources are shallowly embedded:
* `GSet<T>` (a `HashSet<T>` wrapper) becomes `Finset`;
* `GCounter<I>` (a `HashMap<I, i64>`) becomes `I → Option Int`, the partial map
  it denotes;
* `u64` hash outputs are natural numbers reduced modulo `2 ^ 64` where the code
  relies on wrapping arithmetic;
* Rust panics (failed asserts, indexing/modulo by zero) become `Option.none` or
  an explicit `panic` marker in iterator results;
* the telemetry tracker keeps the event list and the latched `diffs` counter;
  the derived `Duration` of an event (an `f64` computation used for reporting
  only) is not modelled.
-/

namespace Xp

/-- Wrap-around modulus of Rust `u64` arithmetic. -/
def U64 : ℕ := 2 ^ 64

/-- The keyed 64-bit hash of an item: an arbitrary hash function reduced to the
`u64` range, standing for `RandomState::hash_one`. -/
def hKey (h : String → ℕ) (x : String) : ℕ := h x % U64

/-! ## GSet (src/src/crdt.rs, src/crates/crdt/src/gset.rs)

`GSet<T>` wraps a `HashSet<T>`; it is embedded as `Finset`.  `join` takes a
vector of deltas and extends the base set with each (`Decomposable::join`);
`difference` is pointwise set difference; `size_of` sums the byte lengths of
the elements; `false_matches` counts the symmetric difference of the element
sets. -/

namespace GSet

/-- `GSet::join`: fold the deltas into the base set by union
(`self.base.extend(delta.base)` for each delta). -/
def join {α : Type} [DecidableEq α] (s : Finset α) (deltas : List (Finset α)) : Finset α :=
  deltas.foldl (fun acc d => acc ∪ d) s

/-- `GSet::difference`: elements of `self` not present in `remote`. -/
def difference {α : Type} [DecidableEq α] (s r : Finset α) : Finset α := s \ r

/-- `Baseline::size_of` / `Measurable::size_of` for `GSet<String>`: sum of the
byte lengths of the elements. -/
def sizeOf (s : Finset String) : ℕ := ∑ x ∈ s, x.length

/-- `Measurable::false_matches`: cardinality of the symmetric difference of the
element sets (also the quantity passed to `tracker.finish`). -/
def falseMatches {α : Type} [DecidableEq α] (a b : Finset α) : ℕ := ((a \ b) ∪ (b \ a)).card

theorem join_mem {α : Type} [DecidableEq α] (s : Finset α) (ds : List (Finset α)) (x : α) :
    x ∈ join s ds ↔ x ∈ s ∨ ∃ d ∈ ds, x ∈ d := by
  induction ds generalizing s with
  | nil => simp [join]
  | cons d rest ih =>
      simp only [join, List.foldl_cons] at *
      rw [ih]
      simp only [Finset.mem_union, List.mem_cons]
      constructor
      · rintro ((hx | hx) | ⟨e, he, hx⟩)
        · exact Or.inl hx
        · exact Or.inr ⟨d, Or.inl rfl, hx⟩
        · exact Or.inr ⟨e, Or.inr he, hx⟩
      · rintro (hx | ⟨e, (rfl | he), hx⟩)
        · exact Or.inl (Or.inl hx)
        · exact Or.inl (Or.inr hx)
        · exact Or.inr ⟨e, he, hx⟩

theorem falseMatches_self {α : Type} [DecidableEq α] (a : Finset α) : falseMatches a a = 0 := by
  simp [falseMatches]

end GSet

/-! ## GCounter (src/src/crdt.rs)

`GCounter<I>` wraps a `HashMap<I, i64>`; it is embedded as the partial map
`I → Option Int` it denotes. -/

/-- `GCounter<I>`: the partial map replica-id → count held by the inner
`HashMap<I, i64>`. -/
def GCounter (I : Type) : Type := I → Option Int

namespace GCounter

/-- Joining a single delta into a counter: for every entry of the delta,
`entry(id).and_modify(|inc| *inc = max(*inc, v)).or_insert(v)`. -/
def joinOne {I : Type} (s d : GCounter I) : GCounter I := fun i =>
  match s i, d i with
  | none, v => v
  | some x, none => some x
  | some x, some y => some (max x y)

/-- `GCounter::join`: fold a vector of deltas into the base counter. -/
def join {I : Type} (s : GCounter I) (deltas : List (GCounter I)) : GCounter I :=
  deltas.foldl joinOne s

/-- `GCounter::difference`: keep the entries of `self` whose id is absent from
`remote` or whose count strictly exceeds the remote one. -/
def difference {I : Type} (a b : GCounter I) : GCounter I := fun i =>
  match a i, b i with
  | none, _ => none
  | some x, none => some x
  | some x, some y => if x > y then some x else none

/-- The bottom counter: the empty map. -/
def bot {I : Type} : GCounter I := fun _ => none

end GCounter

/-- C7: for GSet, `join(b, difference(a,b)) = join(a,b)` and
`difference(a,a) = ⊥`; for GCounter likewise, where `join(a,b)` is
`a.join(vec![b])` and `⊥` is the empty counter. -/
theorem difference_correct {α I : Type} [DecidableEq α] :
    (∀ a b : Finset α, GSet.join b [GSet.difference a b] = GSet.join a [b]) ∧
    (∀ a : Finset α, GSet.difference a a = (∅ : Finset α)) ∧
    (∀ a b : GCounter I, GCounter.join b [GCounter.difference a b] = GCounter.join a [b]) ∧
    (∀ a : GCounter I, GCounter.difference a a = GCounter.bot) := by
  refine ⟨?_, ?_, ?_, ?_⟩
  · intro a b
    simp only [GSet.join, List.foldl_cons, List.foldl_nil, GSet.difference]
    rw [Finset.union_sdiff_self_eq_union, Finset.union_comm]
  · intro a
    simp [GSet.difference]
  · intro a b
    funext i
    simp only [GCounter.join, List.foldl_cons, List.foldl_nil, GCounter.joinOne,
      GCounter.difference]
    rcases ha : a i with _ | x <;> rcases hb : b i with _ | y
    · rfl
    · rfl
    · rfl
    · by_cases hxy : x > y
      · simp only [if_pos hxy]
        rw [max_comm]
      · simp only [if_neg hxy]
        have : max x y = y := max_eq_right (le_of_not_lt hxy)
        rw [this]
  · intro a
    funext i
    simp only [GCounter.difference, GCounter.bot]
    rcases ha : a i with _ | x
    · rfl
    · simp

/-! ## Telemetry tracker (src/src/tracker.rs)

`NetworkEvent` keeps the payload byte count and the transfer direction; the
derived `Duration` (computed from the configured bandwidth, an `f64`) is used
only for reporting and is not modelled.  `DefaultTracker` keeps the ordered
event list and the unset-or-set `diffs` counter. -/

/-- A `NetworkEvent`: direction plus payload size in bytes. -/
inductive NetworkEvent : Type where
  | localToRemote (bytes : ℕ)
  | remoteToLocal (bytes : ℕ)
deriving DecidableEq, Repr

/-- `NetworkEvent::bytes`. -/
def NetworkEvent.bytes : NetworkEvent → ℕ
  | .localToRemote b => b
  | .remoteToLocal b => b

/-- `DefaultTracker`: event list plus the unset-or-set `diffs` counter.  The
two configured bandwidths only feed the unmodelled duration computation. -/
structure DefaultTracker : Type where
  events : List NetworkEvent
  diffs : Option ℕ
deriving DecidableEq, Repr

namespace DefaultTracker

/-- `DefaultTracker::new`: no events, `diffs` unset. -/
def new : DefaultTracker := ⟨[], none⟩

/-- `Tracker::is_ready`: no captured events and not finished. -/
def isReady (t : DefaultTracker) : Bool := t.events.isEmpty && t.diffs.isNone

/-- `Tracker::register`: append the event only while `diffs` is unset. -/
def register (t : DefaultTracker) (e : NetworkEvent) : DefaultTracker :=
  if t.diffs.isNone then ⟨t.events ++ [e], t.diffs⟩ else t

/-- `Tracker::finish`: latch `diffs` on the first call; later calls are no-ops. -/
def finish (t : DefaultTracker) (d : ℕ) : DefaultTracker :=
  if t.diffs.isNone then ⟨t.events, some d⟩ else t

end DefaultTracker

/-! ## Baseline protocol (src/src/sync/baseline.rs, src/src/sync.rs)

`Baseline::sync` asserts the tracker is ready (modelled as returning `none`
when it is not, standing in for the panic), ships the full local state,
exchanges the two `difference`s and finishes with the symmetric-difference
count of the final element sets. -/

namespace Baseline

/-- `Baseline::sync` on a pair of `GSet<String>` replicas.  Returns the final
local state, final remote state, and final tracker; `none` models the panic of
the `tracker.is_ready()` assertion. -/
def sync (locR remR : Finset String) (t : DefaultTracker) :
    Option (Finset String × Finset String × DefaultTracker) :=
  if t.isReady then
    -- 1. Ship the full local state.
    let t1 := t.register (.localToRemote (GSet.sizeOf locR))
    -- 2.1. Compute the optimal deltas on the remote side.
    let remoteUnseen := GSet.difference locR remR
    let localUnseen := GSet.difference remR locR
    -- 2.2. Join the decompositions unknown to the remote replica.
    let rem2 := GSet.join remR [remoteUnseen]
    -- 2.3. Ship back the decompositions unknown to the local replica.
    let t2 := t1.register (.remoteToLocal (GSet.sizeOf localUnseen))
    -- 3. Merge the delta received from the remote replica.
    let loc2 := GSet.join locR [localUnseen]
    -- 4. Sanity check: latch the symmetric-difference count.
    let t3 := t2.finish (GSet.falseMatches loc2 rem2)
    some (loc2, rem2, t3)
  else none

end Baseline

/-- C1: for every pair of `GSet<String>` replicas and every ready tracker,
`Baseline::sync` terminates with both replicas equal to the union of the two
pre-sync states, the two recorded events, and the `diffs` counter latched at
0. -/
theorem baseline_sync_converges (locR remR : Finset String) (t : DefaultTracker)
    (ht : t.isReady = true) :
    Baseline.sync locR remR t =
      some (locR ∪ remR, locR ∪ remR,
        ⟨t.events ++ [.localToRemote (GSet.sizeOf locR),
          .remoteToLocal (GSet.sizeOf (remR \ locR))], some 0⟩) := by
  have hev : t.events = [] := by
    have := ht
    simp only [DefaultTracker.isReady, Bool.and_eq_true, List.isEmpty_iff,
      Option.isNone_iff_eq_none] at this
    exact this.1
  have hdf : t.diffs = none := by
    have := ht
    simp only [DefaultTracker.isReady, Bool.and_eq_true, List.isEmpty_iff,
      Option.isNone_iff_eq_none] at this
    exact this.2
  have hloc : GSet.join locR [GSet.difference remR locR] = locR ∪ remR := by
    simp only [GSet.join, List.foldl_cons, List.foldl_nil, GSet.difference]
    exact Finset.union_sdiff_self_eq_union
  have hrem : GSet.join remR [GSet.difference locR remR] = locR ∪ remR := by
    simp only [GSet.join, List.foldl_cons, List.foldl_nil, GSet.difference]
    rw [Finset.union_sdiff_self_eq_union, Finset.union_comm]
  simp only [Baseline.sync, ht, if_true]
  rw [hloc, hrem]
  simp [DefaultTracker.register, DefaultTracker.finish, hev, hdf, GSet.falseMatches,
    GSet.difference]

/-- Witness for C1 at a concrete input. -/
theorem baseline_sync_converges_witness :
    Baseline.sync {"a"} {"b"} DefaultTracker.new =
      some (({"a"} : Finset String) ∪ {"b"}, ({"a"} : Finset String) ∪ {"b"},
        ⟨DefaultTracker.new.events ++ [.localToRemote (GSet.sizeOf {"a"}),
          .remoteToLocal (GSet.sizeOf (({"b"} : Finset String) \ {"a"}))], some 0⟩) :=
  baseline_sync_converges {"a"} {"b"} DefaultTracker.new (by decide)

/-! ## Bloom filter (src/crates/bloom/src/lib.rs, src/src/bloom.rs)

The filter holds a bit array of `m = max(⌈-n·ln ε/(ln 2)²⌉, 1)` bits, two hash
seeds and a hash count `k`.  The `i`-th bit index of a value is
`(h0(x) + i·h1(x)) mod 2^64 mod m` (wrapping `u64` arithmetic).  The bit array
size is kept abstract here (its computation goes through `f64` logarithms);
every constructed filter has a non-empty array. -/

/-- The state of a `BloomFilter<String>`: bit array, hash count `k`, and the
two keyed hashes drawn at construction (`u64` outputs, reduced mod `2 ^ 64` at
use sites). -/
structure BloomFilter : Type where
  arr : List Bool
  k : ℕ
  h0 : String → ℕ
  h1 : String → ℕ

namespace BloomFilter

/-- The `i`-th derived bit index of `value`:
`h.0.wrapping_add(i.wrapping_mul(h.1)) as usize % arr.len()`. -/
def bitIndex (f : BloomFilter) (x : String) (i : ℕ) : ℕ :=
  (f.h0 x % U64 + i * (f.h1 x % U64)) % U64 % f.arr.length

/-- `BloomFilter::contains`: true iff all `k` derived bits are set. -/
def contains (f : BloomFilter) (x : String) : Bool :=
  (List.range f.k).all fun i => f.arr.getD (f.bitIndex x i) false

/-- `BloomFilter::insert`: set all `k` derived bits.  (`arr.len()` is fixed, so
the indices are computed against the original length.) -/
def insert (f : BloomFilter) (x : String) : BloomFilter :=
  { f with arr := (List.range f.k).foldl (fun a i => a.set (f.bitIndex x i) true) f.arr }

/-- Embedding of the argument validation of `BloomFilter::new` in
src/crates/bloom/src/lib.rs: the two `ensure!` guards, `epsilon > 0.0` and
`(0.0..1.0).contains(&epsilon)`.  The subsequent sizing of the bit array and
hash count never fails, so the `Ok` payload is irrelevant to the failure
condition and is left as `Unit`. -/
def new (epsilon : ℚ) : Except String Unit :=
  if ¬ (0 < epsilon) then
    .error "false positive rate should be larger than 0.0"
  else if ¬ (0 ≤ epsilon ∧ epsilon < 1) then
    .error "false positive rate should be a value in the interval (0.0..1.0)"
  else
    .ok ()

/-- Embedding of the argument validation of
`BloomFilter::with_capacity_and_fpr` in src/src/bloom.rs: the single
`assert!((0.0..=1.0).contains(&fpr))` — the closed interval, "inclusive" per
its own message.  The sizing that follows (`f64` logarithms) performs no
further argument check, so the assert is this constructor's only
invalid-argument failure point; `none` models its panic.  In particular
`fpr = 1` passes the assert and construction succeeds (`ln 1 = 0`, so
`m = 0`, `k = 0`), and `fpr = 0` passes the assert as well. -/
def withCapacityAndFpr (fpr : ℚ) : Option Unit :=
  if 0 ≤ fpr ∧ fpr ≤ 1 then some () else none

/-- Auxiliary: setting bits preserves the array length. -/
theorem foldl_set_length (g : ℕ → ℕ) (idxs : List ℕ) (a : List Bool) :
    (idxs.foldl (fun a i => a.set (g i) true) a).length = a.length := by
  induction idxs generalizing a with
  | nil => rfl
  | cons j rest ih =>
      simp only [List.foldl_cons]
      rw [ih, List.length_set]

theorem insert_arr_length (f : BloomFilter) (x : String) :
    (f.insert x).arr.length = f.arr.length := by
  simp only [insert]
  exact foldl_set_length _ _ _

/-- Auxiliary: a bit that reads `true` still reads `true` after any `set _ true`. -/
theorem getD_set_true (a : List Bool) (i j : ℕ) (h : a.getD i false = true) :
    (a.set j true).getD i false = true := by
  by_cases hij : i = j
  · subst hij
    by_cases hlen : i < a.length
    · rw [List.getD_eq_getElem?_getD, List.getElem?_set_self hlen]
      rfl
    · rw [List.set_eq_of_length_le (le_of_not_lt hlen)]
      exact h
  · rw [List.getD_eq_getElem?_getD, List.getElem?_set_ne (fun hh => hij hh.symm)]
    rw [List.getD_eq_getElem?_getD] at h
    exact h

/-- Auxiliary: a `true` bit survives a whole fold of `set _ true`. -/
theorem foldl_set_preserves_true (g : ℕ → ℕ) (idxs : List ℕ) (a : List Bool) (i : ℕ)
    (h : a.getD i false = true) :
    (idxs.foldl (fun a j => a.set (g j) true) a).getD i false = true := by
  induction idxs generalizing a with
  | nil => exact h
  | cons j rest ih =>
      simp only [List.foldl_cons]
      exact ih _ (getD_set_true a i (g j) h)

/-- Auxiliary: after folding `set (g _) true` over `idxs`, every index `g i`
with `i ∈ idxs` that is in bounds reads `true`. -/
theorem foldl_set_mem_true (g : ℕ → ℕ) (idxs : List ℕ) (a : List Bool) (i : ℕ)
    (hi : i ∈ idxs) (hlen : g i < a.length) :
    (idxs.foldl (fun a j => a.set (g j) true) a).getD (g i) false = true := by
  induction idxs generalizing a with
  | nil => cases hi
  | cons j rest ih =>
      simp only [List.foldl_cons]
      rcases List.mem_cons.mp hi with rfl | hmem
      · apply foldl_set_preserves_true
        rw [List.getD_eq_getElem?_getD, List.getElem?_set_self hlen]
        rfl
      · exact ih _ hmem (by rw [List.length_set]; exact hlen)

/-- Monotonicity: once `contains` holds it keeps holding after any insertion. -/
theorem contains_insert_mono (f : BloomFilter) (x y : String)
    (h : f.contains x = true) : (f.insert y).contains x = true := by
  simp only [contains, List.all_eq_true] at h ⊢
  intro i hi
  have hidx : (f.insert y).bitIndex x i = f.bitIndex x i := by
    simp only [bitIndex, insert, foldl_set_length]
  rw [hidx]
  simp only [insert]
  exact foldl_set_preserves_true _ _ _ _ (h i hi)

/-- After `insert x`, `contains x` holds (the array must be non-empty, as it is
for every constructed filter). -/
theorem contains_insert_self (f : BloomFilter) (x : String)
    (hm : 0 < f.arr.length) : (f.insert x).contains x = true := by
  simp only [contains, List.all_eq_true]
  intro i hi
  have hidx : (f.insert x).bitIndex x i = f.bitIndex x i := by
    simp only [bitIndex, insert, foldl_set_length]
  rw [hidx]
  simp only [insert]
  exact foldl_set_mem_true (f.bitIndex x) _ _ _ hi (Nat.mod_lt _ hm)

end BloomFilter

/-- C5: once `insert(x)` has been performed on a (constructed, hence non-empty)
Bloom filter, `contains(x)` returns true, and it remains true after any
further sequence of insertions. -/
theorem bloom_no_false_negatives (f : BloomFilter) (x : String) (l : List String)
    (hm : 0 < f.arr.length) :
    (l.foldl BloomFilter.insert (f.insert x)).contains x = true := by
  have hbase := BloomFilter.contains_insert_self f x hm
  generalize f.insert x = f1 at hbase ⊢
  induction l generalizing f1 with
  | nil => exact hbase
  | cons y rest ih =>
      simp only [List.foldl_cons]
      exact ih _ (BloomFilter.contains_insert_mono f1 x y hbase)

/-- Concrete filter used by the C5 witness. -/
def bloomF0 : BloomFilter :=
  ⟨[false, false, false], 2, String.length, fun s => s.length + 1⟩

/-- Witness for C5 at a concrete input. -/
theorem bloom_no_false_negatives_witness :
    (["bb", "ccc"].foldl BloomFilter.insert (bloomF0.insert "a")).contains "a" = true :=
  bloom_no_false_negatives bloomF0 "a" ["bb", "ccc"] (by decide)

/-- C6 fails on the code as stated: the constructor in src/src/bloom.rs
(`with_capacity_and_fpr`, one of the claim's cited sources) accepts the
closed interval — its invalid-argument check passes at ε = 1 (where the
subsequent sizing yields `m = 0`, `k = 0` and construction succeeds) and at
ε = 0, contradicting "construction with ε = 0 or ε = 1 fails". -/
theorem bloom_with_capacity_and_fpr_accepts_bounds :
    BloomFilter.withCapacityAndFpr 0 = some () ∧
    BloomFilter.withCapacityAndFpr 1 = some () := by
  refine ⟨by decide, by decide⟩

/-- C6 amended: the crates/bloom constructor (`BloomFilter::new`) fails with
an invalid-argument error iff ε lies outside the open interval (0,1) — ε = 0
and ε = 1 fail and every 0 < ε < 1 succeeds — while the src/src/bloom.rs
constructor (`with_capacity_and_fpr`) checks the closed interval instead: its
invalid-argument assert fails iff ε ∉ [0,1], so construction with ε = 0 or
ε = 1 passes it. -/
theorem bloom_new_ok_iff :
    (∀ epsilon : ℚ, (BloomFilter.new epsilon).isOk = true ↔ (0 < epsilon ∧ epsilon < 1)) ∧
    (BloomFilter.new 0).isOk = false ∧ (BloomFilter.new 1).isOk = false ∧
    (∀ epsilon : ℚ,
      (BloomFilter.withCapacityAndFpr epsilon).isSome = true ↔ (0 ≤ epsilon ∧ epsilon ≤ 1)) ∧
    (BloomFilter.withCapacityAndFpr 0).isSome = true ∧
    (BloomFilter.withCapacityAndFpr 1).isSome = true := by
  refine ⟨?_, by decide, by decide, ?_, by decide, by decide⟩
  · intro epsilon
    simp only [BloomFilter.new]
    by_cases h0 : 0 < epsilon
    · by_cases h1 : epsilon < 1
      · simp [h0, h1, le_of_lt h0, Except.isOk, Except.toBool]
      · simp [h0, h1, Except.isOk, Except.toBool]
    · simp [h0, Except.isOk, Except.toBool]
  · intro epsilon
    simp only [BloomFilter.withCapacityAndFpr]
    by_cases h : 0 ≤ epsilon ∧ epsilon ≤ 1
    · simp [h]
    · simp [h]

/-- Witness for C6 at a concrete input. -/
theorem bloom_new_ok_iff_witness :
    (BloomFilter.new (1/2)).isOk = true ∧
    (BloomFilter.withCapacityAndFpr (1/2)).isSome = true :=
  ⟨(bloom_new_ok_iff.1 (1/2)).mpr (by norm_num),
   ((bloom_new_ok_iff.2.2.2.1 (1/2)).mpr (by norm_num))⟩

/-! ## The `Elements` iterator (src/src/crdt.rs, lines 20–37 and 78–84)

`GSet::elements` collects the set into a buffer `elems` and returns
`Elements { elems, idx: 0 }`.  `Elements::next` first tests
`idx >= elems.len()` (returning `None`), then increments `idx` and returns
`Some(&self.elems[self.idx])` — indexing with the already-incremented index.
Out-of-bounds indexing panics in Rust; the `panic` constructor records it. -/

/-- The `Elements<'a, T>` iterator state over a `GSet<String>` buffer. -/
structure Elements : Type where
  elems : List String
  idx : ℕ
deriving DecidableEq, Repr

/-- The outcome of one `Iterator::next` call. -/
inductive IterStep : Type where
  | stop
  | yield (a : String)
  | panic
deriving DecidableEq, Repr

namespace Elements

/-- `Elements::next`: return `None` when `idx >= elems.len()`; otherwise
increment `idx` and index `elems[idx]` (panicking when the new index is out of
bounds). -/
def next (s : Elements) : IterStep × Elements :=
  if s.elems.length ≤ s.idx then (.stop, s)
  else
    let t : Elements := ⟨s.elems, s.idx + 1⟩
    match s.elems[t.idx]? with
    | some a => (.yield a, t)
    | none => (.panic, t)

/-- Drive the iterator to completion with explicit fuel, collecting the yielded
values and recording whether it panicked (`true`) or returned `None`
(`false`). -/
def runAux : ℕ → Elements → List String × Bool
  | 0, _ => ([], false)
  | fuel + 1, s =>
      match next s with
      | (.stop, _) => ([], false)
      | (.panic, _) => ([], true)
      | (.yield a, t) =>
          let r := runAux fuel t
          (a :: r.1, r.2)

/-- Run the iterator from its current state; `elems.len() + 1` calls always
suffice to reach `None` or a panic. -/
def run (s : Elements) : List String × Bool :=
  runAux (s.elems.length + 1 - s.idx) s

/-- `GSet::elements`: the iterator over the collected buffer, starting at
index 0. -/
def ofBuffer (l : List String) : Elements := ⟨l, 0⟩

theorem runAux_from_aux (l : List String) :
    ∀ (n i : ℕ), i < l.length → l.length - i - 1 = n →
      runAux (n + 2) ⟨l, i⟩ = (l.drop (i + 1), true) := by
  intro n
  induction n with
  | zero =>
      -- i = l.length - 1: the next call indexes l[l.length], one past the end.
      intro i h hn
      simp only [runAux, next, if_neg (not_le.mpr h)]
      have : l[i + 1]? = none := by
        rw [List.getElem?_eq_none]
        omega
      simp only [this]
      have hdrop : List.drop (i + 1) l = [] := by
        rw [List.drop_eq_nil_iff]
        omega
      rw [hdrop]
  | succ n ih =>
      intro i h hn
      have hlt : i + 1 < l.length := by omega
      have hget : l[i + 1]? = some (l.get ⟨i + 1, hlt⟩) := List.getElem?_eq_getElem hlt
      have hnext : next ⟨l, i⟩ = (.yield (l.get ⟨i + 1, hlt⟩), ⟨l, i + 1⟩) := by
        simp only [next, if_neg (not_le.mpr h), hget]
      have hstep : runAux (n + 1 + 2) ⟨l, i⟩ =
          match next ⟨l, i⟩ with
          | (.stop, _) => ([], false)
          | (.panic, _) => ([], true)
          | (.yield a, t) => (a :: (runAux (n + 2) t).1, (runAux (n + 2) t).2) := rfl
      rw [hstep, hnext]
      have hrec := ih (i + 1) hlt (by omega)
      show (l.get ⟨i + 1, hlt⟩ :: (runAux (n + 2) ⟨l, i + 1⟩).1,
        (runAux (n + 2) ⟨l, i + 1⟩).2) = _
      rw [hrec]
      rw [List.drop_eq_getElem_cons hlt]
      rfl

theorem runAux_from (l : List String) (i : ℕ) (h : i < l.length) :
    runAux (l.length + 1 - i) ⟨l, i⟩ = (l.drop (i + 1), true) := by
  have hfuel : l.length + 1 - i = (l.length - i - 1) + 2 := by omega
  rw [hfuel]
  exact runAux_from_aux l _ i h rfl

end Elements

/-- C10: iterating the `Elements` iterator of a non-empty `GSet` buffer yields
exactly the tail of the buffer — never its first element — and its final
`next()` call indexes one position past the end of the buffer (a panic)
instead of returning `None`, so full iteration is never total. -/
theorem elements_iterator_skips_head_and_overruns (l : List String)
    (hne : l ≠ []) (hnd : l.Nodup) :
    Elements.run (Elements.ofBuffer l) = (l.tail, true) ∧
    ∀ x ∈ (Elements.run (Elements.ofBuffer l)).1, x ≠ l.headI := by
  have hlen : 0 < l.length := List.length_pos.mpr hne
  have hrun : Elements.run (Elements.ofBuffer l) = (l.tail, true) := by
    simp only [Elements.run, Elements.ofBuffer]
    simpa using Elements.runAux_from l 0 hlen
  refine ⟨hrun, ?_⟩
  intro x hx
  rw [hrun] at hx
  rcases l with _ | ⟨a, rest⟩
  · cases hne rfl
  · simp only [List.tail_cons] at hx
    simp only [List.headI_cons]
    intro hxa
    subst hxa
    exact (List.nodup_cons.mp hnd).1 hx

/-- Witness for C10 at a concrete input. -/
theorem elements_iterator_skips_head_and_overruns_witness :
    Elements.run (Elements.ofBuffer ["a", "b"]) = (["b"], true) ∧
    ∀ x ∈ (Elements.run (Elements.ofBuffer ["a", "b"])).1, x ≠ ["a", "b"].headI :=
  elements_iterator_skips_head_and_overruns ["a", "b"] (by decide) (by decide)

/-! ## AWSet (src/src/crdt.rs, lines 344–519)

`AWSet<T>` holds `inserted: HashMap<u64, T>` and `removed: HashSet<u64>`,
embedded as association lists (`HashMap::insert` replaces an existing key,
`HashSet` insertion deduplicates).  `AWSet::insert` mints the uid
`max(inserted.keys().max(), removed.iter().max()).unwrap_or(&0) + 1` — a
deterministic sequential id, not a random one. -/

/-- The `AWSet<String>` state: insert map (uid → value) and tombstone set. -/
structure AWSet : Type where
  inserted : List (ℕ × String)
  removed : List ℕ
deriving DecidableEq, Repr

namespace AWSet

/-- `HashMap::insert` on the association-list model: replace the value of an
existing key, otherwise append the entry. -/
def assocInsert (m : List (ℕ × String)) (k : ℕ) (v : String) : List (ℕ × String) :=
  if m.any fun kv => kv.1 == k then
    m.map fun kv => if kv.1 == k then (k, v) else kv
  else m ++ [(k, v)]

/-- The uid minted by `AWSet::insert`:
`max(inserted.keys().max(), removed.iter().max()).unwrap_or(&0) + 1`. -/
def nextId (s : AWSet) : ℕ :=
  max ((s.inserted.map Prod.fst).foldr max 0) (s.removed.foldr max 0) + 1

/-- `AWSet::insert`: mint the next uid, record `(uid, value)`, and return the
new state together with the delta. -/
def insert (s : AWSet) (v : String) : AWSet × AWSet :=
  let id := s.nextId
  (⟨assocInsert s.inserted id v, s.removed⟩, ⟨[(id, v)], []⟩)

/-- `AWSet::remove`: tombstone the uid of a live entry holding `value`, if
any, returning the new state together with the delta. -/
def remove (s : AWSet) (v : String) : AWSet × AWSet :=
  match s.inserted.find? (fun kv => v == kv.2 && !(s.removed.contains kv.1)) with
  | some kv => (⟨s.inserted, s.removed ++ [kv.1]⟩, ⟨[], [kv.1]⟩)
  | none => (s, ⟨[], []⟩)

/-- `AWSet::join` for a single delta: extend the insert map and the tombstone
set. -/
def joinOne (s d : AWSet) : AWSet :=
  ⟨d.inserted.foldl (fun acc kv => assocInsert acc kv.1 kv.2) s.inserted,
   d.removed.foldl (fun acc i => if acc.contains i then acc else acc ++ [i]) s.removed⟩

/-- `AWSet::join` over a vector of deltas. -/
def join (s : AWSet) (deltas : List AWSet) : AWSet := deltas.foldl joinOne s

/-- `AWSet::contains`: some insert entry holds the value and its uid is not
tombstoned. -/
def contains (s : AWSet) (v : String) : Bool :=
  s.inserted.any fun kv => v == kv.2 && !(s.removed.contains kv.1)

end AWSet

/-- The local replica of the C9 scenario after inserting `"x"`. -/
def awLocalIns : AWSet := ((AWSet.mk [] []).insert "x").1

/-- The local replica of the C9 scenario after inserting then removing `"x"`. -/
def awLocalRem : AWSet := (awLocalIns.remove "x").1

/-- The remote replica of the C9 scenario: a fresh replica that inserts
`"x"`. -/
def awRemoteIns : AWSet := ((AWSet.mk [] []).insert "x").1

/-- C9 fails on the code: both replicas mint the same sequential uid 1 for
`"x"`, so after an exact synchronization (mutually joining the two states) the
tombstone of the local remove also covers the remote insert and neither
replica observes `"x"`. -/
theorem awset_add_remove_interleaving_fails :
    awLocalRem.removed = [1] ∧ awRemoteIns.inserted = [(1, "x")] ∧
    (awLocalRem.join [awRemoteIns]).contains "x" = false ∧
    (awRemoteIns.join [awLocalRem]).contains "x" = false := by
  decide

/-! ## DotContext (src/crates/crdt/src/causal.rs)

`DotContext<I>` holds `clock: FxHashMap<I, u64>` and
`cloud: BTreeSet<Dot<I>>`.  The clock is embedded as an association list, the
cloud as a list in the ascending iteration order of the `BTreeSet`
(lexicographic on `(id, seq)`; within one id the sequence numbers strictly
increase, which is the `Pairwise` hypothesis below).  `compact` iterates the
cloud in that order via `retain`, mutating the clock as it goes.  The guard
`*clock == *seq - 1` is wrapping `u64` arithmetic, hence the explicit
`n = 0 ∧ c = U64 - 1` disjunct, and `*clock += 1` wraps likewise. -/

namespace DotContext

/-- `FxHashMap::get` on the association-list clock. -/
def clockLookup {I : Type} [DecidableEq I] : List (I × ℕ) → I → Option ℕ
  | [], _ => none
  | e :: rest, i => if e.1 = i then some e.2 else clockLookup rest i

/-- Updating the clock entry of `i` in place (`get_mut`; the id is already
present whenever this is called). -/
def clockSet {I : Type} [DecidableEq I] : List (I × ℕ) → I → ℕ → List (I × ℕ)
  | [], _, _ => []
  | e :: rest, i, n => if e.1 = i then (i, n) :: clockSet rest i n else e :: clockSet rest i n

/-- The `retain` loop of `DotContext::compact`: traverse the cloud in
ascending order; a dot `(i, n)` bumps the clock and is dropped when
`clock[i] = n - 1` (wrapping), is dropped when `clock[i] ≥ n`, and is kept
otherwise.  Returns the final clock and the retained cloud. -/
def compactGo {I : Type} [DecidableEq I] (clock : List (I × ℕ)) :
    List (I × ℕ) → List (I × ℕ) × List (I × ℕ)
  | [] => (clock, [])
  | (i, n) :: rest =>
      match clockLookup clock i with
      | some c =>
          if c + 1 = n ∨ (n = 0 ∧ c = U64 - 1) then
            compactGo (clockSet clock i ((c + 1) % U64)) rest
          else if n ≤ c then
            compactGo clock rest
          else
            let r := compactGo clock rest
            (r.1, (i, n) :: r.2)
      | none =>
          let r := compactGo clock rest
          (r.1, (i, n) :: r.2)

theorem clockLookup_clockSet_ne {I : Type} [DecidableEq I] (c : List (I × ℕ)) (i j : I)
    (n : ℕ) (hij : j ≠ i) : clockLookup (clockSet c i n) j = clockLookup c j := by
  induction c with
  | nil => rfl
  | cons e rest ih =>
      simp only [clockSet]
      by_cases hei : e.1 = i
      · simp only [if_pos hei, clockLookup]
        rw [if_neg (fun hh : i = j => hij hh.symm), if_neg (fun hh : e.1 = j => hij (hei ▸ hh).symm)]
        exact ih
      · simp only [if_neg hei, clockLookup]
        by_cases hej : e.1 = j
        · simp only [if_pos hej]
        · simp only [if_neg hej]
          exact ih

/-- If the clock entry of `i` never satisfies the bump guard while processing
`dots`, the final clock still answers the same for `i`. -/
theorem compactGo_lookup_stable {I : Type} [DecidableEq I] :
    ∀ (dots : List (I × ℕ)) (clock : List (I × ℕ)) (i : I),
      (clockLookup clock i = none ∨
        ∃ c, clockLookup clock i = some c ∧ ∀ n2, (i, n2) ∈ dots → c + 1 < n2) →
      clockLookup (compactGo clock dots).1 i = clockLookup clock i := by
  intro dots
  induction dots with
  | nil => intro clock i _; rfl
  | cons d rest ih =>
      intro clock i hyp
      obtain ⟨j, m⟩ := d
      simp only [compactGo]
      cases hcj : clockLookup clock j with
      | none =>
          simp only []
          apply ih
          rcases hyp with hnone | ⟨c, hc, hall⟩
          · exact Or.inl hnone
          · exact Or.inr ⟨c, hc, fun n2 hmem => hall n2 (List.mem_cons_of_mem _ hmem)⟩
      | some cj =>
          by_cases hcond : cj + 1 = m ∨ (m = 0 ∧ cj = U64 - 1)
          · simp only [if_pos hcond]
            have hji : i ≠ j := by
              intro hij
              subst hij
              rcases hyp with hnone | ⟨c, hc, hall⟩
              · rw [hnone] at hcj; cases hcj
              · rw [hc] at hcj
                injection hcj with hce
                subst hce
                have hm := hall m (List.mem_cons_self _ _)
                rcases hcond with h1 | ⟨h0, _⟩
                · omega
                · omega
            rw [ih (clockSet clock j ((cj + 1) % U64)) i ?_, clockLookup_clockSet_ne _ _ _ _ hji]
            rw [clockLookup_clockSet_ne _ _ _ _ hji]
            rcases hyp with hnone | ⟨c, hc, hall⟩
            · exact Or.inl hnone
            · exact Or.inr ⟨c, hc, fun n2 hmem => hall n2 (List.mem_cons_of_mem _ hmem)⟩
          · simp only [if_neg hcond]
            by_cases hdrop : m ≤ cj
            · simp only [if_pos hdrop]
              apply ih
              rcases hyp with hnone | ⟨c, hc, hall⟩
              · exact Or.inl hnone
              · exact Or.inr ⟨c, hc, fun n2 hmem => hall n2 (List.mem_cons_of_mem _ hmem)⟩
            · simp only [if_neg hdrop]
              apply ih
              rcases hyp with hnone | ⟨c, hc, hall⟩
              · exact Or.inl hnone
              · exact Or.inr ⟨c, hc, fun n2 hmem => hall n2 (List.mem_cons_of_mem _ hmem)⟩

/-- A kept dot stays ahead of the final clock: the core invariant of the
`retain` traversal. -/
theorem compactGo_inv {I : Type} [DecidableEq I] :
    ∀ (dots clock : List (I × ℕ)),
      dots.Pairwise (fun d e => d.1 = e.1 → d.2 < e.2) →
      ∀ i n, (i, n) ∈ (compactGo clock dots).2 →
        ∀ c, clockLookup (compactGo clock dots).1 i = some c → c + 1 < n := by
  intro dots
  induction dots with
  | nil =>
      intro clock _ i n hmem
      cases hmem
  | cons d rest ih =>
      intro clock hpw i n hmem c hc
      obtain ⟨j, m⟩ := d
      have hpwtail := (List.pairwise_cons.mp hpw).2
      have hpwhead := (List.pairwise_cons.mp hpw).1
      simp only [compactGo] at hmem hc
      cases hcj : clockLookup clock j with
      | none =>
          simp only [hcj] at hmem hc
          rcases List.mem_cons.mp hmem with heq | hmem2
          · injection heq with h1 h2
            subst h1
            subst h2
            -- the kept dot has no clock entry, and the entry never appears
            have hst := compactGo_lookup_stable rest clock i (Or.inl hcj)
            rw [hst, hcj] at hc
            cases hc
          · exact ih clock hpwtail i n hmem2 c hc
      | some cj =>
          simp only [hcj] at hmem hc
          by_cases hcond : cj + 1 = m ∨ (m = 0 ∧ cj = U64 - 1)
          · rw [if_pos hcond] at hmem hc
            exact ih _ hpwtail i n hmem c hc
          · rw [if_neg hcond] at hmem hc
            by_cases hdrop : m ≤ cj
            · rw [if_pos hdrop] at hmem hc
              exact ih clock hpwtail i n hmem c hc
            · rw [if_neg hdrop] at hmem hc
              rcases List.mem_cons.mp hmem with heq | hmem2
              · injection heq with h1 h2
                subst h1
                subst h2
                -- kept because the bump guard and the drop guard both failed;
                -- the later dots of `i` are strictly larger, so the clock
                -- entry of `i` never changes afterwards
                have hlt : cj + 1 < n := by
                  rcases Nat.lt_or_ge (cj + 1) n with h | h
                  · exact h
                  · exfalso
                    rcases Nat.eq_or_lt_of_le h with h1 | h1
                    · exact hcond (Or.inl h1.symm)
                    · omega
                have hst := compactGo_lookup_stable rest clock i
                  (Or.inr ⟨cj, hcj, fun n2 hmem3 => by
                    have := hpwhead (i, n2) hmem3 rfl
                    omega⟩)
                rw [hst, hcj] at hc
                injection hc with hce
                omega
              · exact ih clock hpwtail i n hmem2 c hc

end DotContext

/-- C8: after the `retain` traversal of `DotContext::compact` (the compaction
also run at the end of `join`), no dot `(i, n)` remains in the cloud whose
final clock entry `c` satisfies `c ≥ n` or `c = n − 1` (equivalently,
`c + 1 < n` for every kept dot); and the spec example compacts
`clock={a:3,b:6}`, `cloud={(a,4),(a,5),(b,9),(c,3)}` to `clock={a:5,b:6}`,
`cloud={(b,9),(c,3)}`. -/
theorem dotcontext_compact_invariant {I : Type} [DecidableEq I] :
    (∀ (clock cloud : List (I × ℕ)),
      cloud.Pairwise (fun d e => d.1 = e.1 → d.2 < e.2) →
      ∀ i n, (i, n) ∈ (DotContext.compactGo clock cloud).2 →
        ∀ c, DotContext.clockLookup (DotContext.compactGo clock cloud).1 i = some c →
          ¬ (n ≤ c) ∧ c ≠ n - 1 ∧ c + 1 < n) ∧
    DotContext.compactGo [("a", 3), ("b", 6)] [("a", 4), ("a", 5), ("b", 9), ("c", 3)] =
      ([("a", 5), ("b", 6)], [("b", 9), ("c", 3)]) := by
  constructor
  · intro clock cloud hpw i n hmem c hc
    have h := DotContext.compactGo_inv cloud clock hpw i n hmem c hc
    exact ⟨by omega, by omega, h⟩
  · decide

/-- Witness for C8 at a concrete input: the dot `("a", 5)` kept against clock
`{a: 3}` satisfies the invariant. -/
theorem dotcontext_compact_invariant_witness :
    ¬ ((5 : ℕ) ≤ 3) ∧ (3 : ℕ) ≠ 5 - 1 ∧ (3 : ℕ) + 1 < 5 :=
  dotcontext_compact_invariant.1 [("a", 3)] [("a", 5), ("b", 2)] (by decide)
    "a" 5 (by decide) 3 (by decide)

/-! ## Buckets protocol (src/src/sync/buckets.rs)

The replica (`GSet<String>`) is passed as the list `l` enumerating its
elements in the (arbitrary) `HashSet` iteration order of `split()`; the hash
`h` stands for the shared session `RandomState`, with outputs reduced to the
`u64` range by `hKey`.  A bucket is a `BTreeMap<u64, GSet<String>>`, embedded
as a key-ascending association list of `(hash, item)` entries — the values are
singleton decompositions, carried here directly by their single item.
`hash % buckets.len()` panics in Rust when the bucket vector is empty
(`num_buckets = 0`), which the embedding models as `none`. -/

namespace Buckets

/-- `BucketsBuilder::build` / `Buckets::with_load_factor`: the bucket count is
`(local.len() as f64 * load_factor) as usize` — the product truncated toward
zero (no rounding up and no clamping to 1). -/
def numBuckets (len : ℕ) (loadFactor : ℚ) : ℕ := (⌊(len : ℚ) * loadFactor⌋).toNat

/-- The bucket count policy as the spec words it: `⌈load_factor · |V|⌉`,
clamped to at least 1. -/
def specNumBuckets (len : ℕ) (loadFactor : ℚ) : ℕ := max 1 (⌈(len : ℚ) * loadFactor⌉).toNat

/-- One `BTreeMap::insert` into an ordered bucket: keep keys strictly
ascending, replacing the value on an equal key. -/
def btInsert (k : ℕ) (v : String) : List (ℕ × String) → List (ℕ × String)
  | [] => [(k, v)]
  | e :: rest =>
      if k < e.1 then (k, v) :: e :: rest
      else if k = e.1 then (k, v) :: rest
      else e :: btInsert k v rest

/-- One iteration of `Buckets::buckets`: hash the single item of the
decomposition, pick the bucket `hash % buckets.len()` (`none` models the Rust
panic on `% 0`), and insert `(hash, item)` there. -/
def bucketsStep (h : String → ℕ) (acc : Option (List (List (ℕ × String)))) (x : String) :
    Option (List (List (ℕ × String))) :=
  match acc with
  | none => none
  | some bs =>
      if bs.length = 0 then none
      else
        some (bs.set (hKey h x % bs.length)
          (btInsert (hKey h x) x (bs.getD (hKey h x % bs.length) [])))

/-- `Buckets::buckets`: distribute the singleton decompositions of the
replica, enumerated by `l`, over `num_buckets` ordered buckets. -/
def buckets (h : String → ℕ) (B : ℕ) (l : List String) : Option (List (List (ℕ × String))) :=
  l.foldl (bucketsStep h) (some (List.replicate B []))

/-- The fingerprint string of a bucket: the concatenation of the decimal
representations of its keys in ascending (`BTreeMap`) order. -/
def fingerprintString (bucket : List (ℕ × String)) : String :=
  bucket.foldl (fun acc kv => acc ++ toString kv.1) ""

/-- `Buckets::hashes`: the keyed hash of each bucket's fingerprint string. -/
def hashes (h : String → ℕ) (bs : List (List (ℕ × String))) : List ℕ :=
  bs.map fun b => hKey h (fingerprintString b)

/-- Aggregating one bucket into a single `GSet` state:
`state.join(Vec::from_iter(bucket.into_values()))`. -/
def aggregateBucket (b : List (ℕ × String)) : Finset String :=
  GSet.join ∅ (b.map fun kv => {kv.2})

/-- The buckets a sync run builds from an enumeration (`none` is impossible
once `0 < B`, see `buckets_isSome`). -/
def bucketsOf (h : String → ℕ) (B : ℕ) (l : List String) : List (List (ℕ × String)) :=
  (buckets h B l).getD []

/-- Step 2.3: which bucket fingerprints match, index by index. -/
def matchings (h : String → ℕ) (B : ℕ) (lLoc lRem : List String) : List Bool :=
  ((hashes h (bucketsOf h B lLoc)).zip (hashes h (bucketsOf h B lRem))).map fun p => p.1 == p.2

/-- Step 2.3: the aggregated remote state of each non-matching bucket (`none`
for the matching ones). -/
def nonMatchingBuckets (h : String → ℕ) (B : ℕ) (lLoc lRem : List String) :
    List (Option (Finset String)) :=
  ((bucketsOf h B lRem).zip (matchings h B lLoc lRem)).map fun p =>
    if p.2 then none else some (aggregateBucket p.1)

/-- The aggregated bucket states actually carried by the reply message (the
`flatten` over the optional buckets). -/
def carried (h : String → ℕ) (B : ℕ) (lLoc lRem : List String) : List (Finset String) :=
  (nonMatchingBuckets h B lLoc lRem).filterMap id

/-- Step 3.1: pair each aggregated local bucket with the aggregated remote
bucket of the same non-matching index (the `Option::zip` inside `flat_map`). -/
def pairsOf (h : String → ℕ) (B : ℕ) (lLoc lRem : List String) :
    List (Finset String × Finset String) :=
  (((bucketsOf h B lLoc).map fun b => some (aggregateBucket b)).zip
      (nonMatchingBuckets h B lLoc lRem)).filterMap fun p =>
    p.1.bind fun lo => p.2.map fun ro => (lo, ro)

/-- Step 3.1: per non-matching bucket, the state unseen by the local replica. -/
def localUnseen (h : String → ℕ) (B : ℕ) (lLoc lRem : List String) : List (Finset String) :=
  (pairsOf h B lLoc lRem).map fun p => GSet.difference p.2 p.1

/-- Step 3.1: per non-matching bucket, the state unseen by the remote replica. -/
def remoteUnseen (h : String → ℕ) (B : ℕ) (lLoc lRem : List String) : List (Finset String) :=
  (pairsOf h B lLoc lRem).map fun p => GSet.difference p.1 p.2

/-- `Buckets::sync`: ship the fingerprint vector, receive the aggregated
non-matching buckets (sized `len + Σ size_of`), exchange the per-bucket
differences, and latch the symmetric-difference count.  `none` models the
panics (tracker not ready, or `% 0` with zero buckets). -/
def sync (h : String → ℕ) (B : ℕ) (lLoc lRem : List String) (t : DefaultTracker) :
    Option (Finset String × Finset String × DefaultTracker) :=
  if t.isReady then
    if (buckets h B lLoc).isSome && (buckets h B lRem).isSome then
      -- 1.2. Send the bucket hashes (8 bytes each).
      let t1 := t.register (.localToRemote (8 * (hashes h (bucketsOf h B lLoc)).length))
      -- 2.4. Send the aggregated non-matching bucket states back
      -- (`non_matching_buckets.len()` plus the sum of their payload sizes).
      let t2 := t1.register (.remoteToLocal ((nonMatchingBuckets h B lLoc lRem).length +
        ((carried h B lLoc lRem).map GSet.sizeOf).sum))
      -- 3.2. Join the unseen remote state into the local replica.
      let loc2 := GSet.join lLoc.toFinset (localUnseen h B lLoc lRem)
      -- 3.2 (cont.). Ship the optimal deltas for the remote replica.
      let t3 := t2.register (.localToRemote (((remoteUnseen h B lLoc lRem).map GSet.sizeOf).sum))
      -- 4.1. Join the optimal deltas into the remote replica.
      let rem2 := GSet.join lRem.toFinset (remoteUnseen h B lLoc lRem)
      -- 5. Sanity check.
      let t4 := t3.finish (GSet.falseMatches loc2 rem2)
      some (loc2, rem2, t4)
    else none
  else none

end Buckets

/-- A concrete injective-on-small-strings hash used by the Buckets witnesses
and counterexamples (stands for one drawn `RandomState`). -/
def charHash (s : String) : ℕ := s.data.foldl (fun a c => a * 256 + c.toNat) 0

/-- The bucket-content message size as the spec words it: per-bucket
aggregated lattice size plus 8 bytes per included index. -/
def specBucketContentBytes (carried : List (Finset String)) : ℕ :=
  (carried.map GSet.sizeOf).sum + 8 * carried.length

/-- C3 fails on the code: with `load_factor = 1/2 > 0` and `|V| = 1` the code
computes `B = (1 × 1/2) as usize = 0`, while `⌈1/2⌉` clamped to ≥ 1 is 1. -/
theorem num_buckets_not_ceiling_counterexample :
    (0 : ℚ) < 1/2 ∧ Buckets.numBuckets 1 (1/2) = 0 ∧ Buckets.specNumBuckets 1 (1/2) = 1 ∧
    Buckets.numBuckets 1 (1/2) ≠ Buckets.specNumBuckets 1 (1/2) := by
  have hfl : ⌊((1 : ℕ) : ℚ) * (1/2)⌋ = 0 := by norm_num
  have hcl : ⌈((1 : ℕ) : ℚ) * (1/2)⌉ = 1 := by
    rw [show ((1 : ℕ) : ℚ) * (1/2) = 1/2 by norm_num]
    rw [Int.ceil_eq_iff]
    norm_num
  have h1 : Buckets.numBuckets 1 (1/2) = 0 := by
    simp only [Buckets.numBuckets, hfl]
    rfl
  have h2 : Buckets.specNumBuckets 1 (1/2) = 1 := by
    simp only [Buckets.specNumBuckets, hcl]
    rfl
  exact ⟨by norm_num, h1, h2, by rw [h1, h2]; omega⟩

/-- C3 amended: for every `load_factor > 0` the bucket count is the product
`load_factor · |V|` truncated toward zero (so it is the unique `B` with
`B ≤ load_factor · |V| < B + 1`), with no clamping to 1. -/
theorem num_buckets_truncates (len : ℕ) (lf : ℚ) (hlf : 0 < lf) :
    (Buckets.numBuckets len lf : ℚ) ≤ (len : ℚ) * lf ∧
    (len : ℚ) * lf < (Buckets.numBuckets len lf : ℚ) + 1 := by
  have hge : (0 : ℚ) ≤ (len : ℚ) * lf := mul_nonneg (Nat.cast_nonneg len) (le_of_lt hlf)
  have hfl : (0 : ℤ) ≤ ⌊(len : ℚ) * lf⌋ := Int.floor_nonneg.mpr hge
  have hcast : ((Buckets.numBuckets len lf : ℤ) : ℚ) = ((⌊(len : ℚ) * lf⌋ : ℤ) : ℚ) := by
    simp only [Buckets.numBuckets]
    rw [Int.toNat_of_nonneg hfl]
  constructor
  · have := Int.floor_le ((len : ℚ) * lf)
    push_cast at hcast ⊢
    rw [hcast]
    exact this
  · have := Int.lt_floor_add_one ((len : ℚ) * lf)
    push_cast at hcast ⊢
    rw [hcast]
    exact this

/-- Witness for the amended C3 at a concrete input. -/
theorem num_buckets_truncates_witness :
    (Buckets.numBuckets 3 (1/2) : ℚ) ≤ (3 : ℚ) * (1/2) ∧
    (3 : ℚ) * (1/2) < (Buckets.numBuckets 3 (1/2) : ℚ) + 1 :=
  num_buckets_truncates 3 (1/2) (by norm_num)

/-- C2 fails on the code as stated: with `load_factor = 1/2 > 0` and a
singleton local replica the bucket count is 0 and `Buckets::sync` panics on
`hash % 0` instead of converging. -/
theorem buckets_sync_zero_buckets_counterexample :
    (0 : ℚ) < 1/2 ∧
    Buckets.numBuckets (["a"] : List String).length (1/2) = 0 ∧
    Buckets.sync charHash (Buckets.numBuckets (["a"] : List String).length (1/2))
      ["a"] ["b"] DefaultTracker.new = none := by
  have h0 : Buckets.numBuckets (["a"] : List String).length (1/2) = 0 := by
    have hfl : ⌊((1 : ℕ) : ℚ) * (1/2)⌋ = 0 := by norm_num
    simp only [List.length_cons, List.length_nil, Buckets.numBuckets, hfl]
    rfl
  refine ⟨by norm_num, h0, ?_⟩
  rw [h0]
  decide

/-- C4 fails on the code: on a run with 2 buckets, an empty local replica and
remote `{"a"}`, the recorded bucket-content message size is
`non_matching_buckets.len() + Σ size_of = 2 + 1 = 3` bytes, while the spec
formula (aggregated sizes plus 8 bytes per included index) gives
`1 + 8·1 = 9`. -/
theorem bucket_content_bytes_counterexample :
    Buckets.sync charHash 2 [] ["a"] DefaultTracker.new =
      some ({"a"}, {"a"},
        ⟨[.localToRemote 16, .remoteToLocal 3, .localToRemote 0], some 0⟩) ∧
    Buckets.carried charHash 2 [] ["a"] = [{"a"}] ∧
    specBucketContentBytes (Buckets.carried charHash 2 [] ["a"]) = 9 ∧
    (3 : ℕ) ≠ 9 := by
  refine ⟨by decide, by decide, by decide, by decide⟩

namespace Buckets

/-- A bucket's keys are strictly ascending — the `BTreeMap` shape. -/
def KeySorted (b : List (ℕ × String)) : Prop := b.Pairwise fun d e => d.1 < e.1

theorem btInsert_mem (k : ℕ) (v : String) (b : List (ℕ × String)) (hs : KeySorted b)
    (e : ℕ × String) : e ∈ btInsert k v b ↔ e = (k, v) ∨ (e ∈ b ∧ e.1 ≠ k) := by
  induction b with
  | nil => simp [btInsert]
  | cons d rest ih =>
      obtain ⟨hhead, hs2⟩ := List.pairwise_cons.mp hs
      simp only [btInsert]
      by_cases h1 : k < d.1
      · rw [if_pos h1]
        simp only [List.mem_cons]
        constructor
        · rintro (rfl | he)
          · exact Or.inl rfl
          · rcases he with rfl | hr
            · exact Or.inr ⟨Or.inl rfl, by omega⟩
            · exact Or.inr ⟨Or.inr hr, by have := hhead e hr; omega⟩
        · rintro (rfl | ⟨he, hne⟩)
          · exact Or.inl rfl
          · exact Or.inr he
      · by_cases h2 : k = d.1
        · rw [if_neg h1, if_pos h2]
          simp only [List.mem_cons]
          constructor
          · rintro (rfl | he)
            · exact Or.inl rfl
            · exact Or.inr ⟨Or.inr he, by have := hhead e he; omega⟩
          · rintro (rfl | ⟨he, hne⟩)
            · exact Or.inl rfl
            · rcases he with rfl | hr
              · omega
              · exact Or.inr hr
        · rw [if_neg h1, if_neg h2]
          simp only [List.mem_cons, ih hs2]
          constructor
          · rintro (rfl | (rfl | ⟨hr, hne⟩))
            · exact Or.inr ⟨Or.inl rfl, by omega⟩
            · exact Or.inl rfl
            · exact Or.inr ⟨Or.inr hr, hne⟩
          · rintro (rfl | ⟨(rfl | hr), hne⟩)
            · exact Or.inr (Or.inl rfl)
            · exact Or.inl rfl
            · exact Or.inr (Or.inr ⟨hr, hne⟩)

theorem btInsert_keySorted (k : ℕ) (v : String) (b : List (ℕ × String)) (hs : KeySorted b) :
    KeySorted (btInsert k v b) := by
  induction b with
  | nil =>
      simp [btInsert, KeySorted]
  | cons d rest ih =>
      obtain ⟨hhead, hs2⟩ := List.pairwise_cons.mp hs
      simp only [btInsert]
      by_cases h1 : k < d.1
      · rw [if_pos h1]
        refine List.pairwise_cons.mpr ⟨?_, hs⟩
        intro f hf
        rcases List.mem_cons.mp hf with rfl | hr
        · exact h1
        · have := hhead f hr; omega
      · by_cases h2 : k = d.1
        · rw [if_neg h1, if_pos h2]
          refine List.pairwise_cons.mpr ⟨?_, hs2⟩
          intro f hf
          have := hhead f hf
          omega
        · rw [if_neg h1, if_neg h2]
          refine List.pairwise_cons.mpr ⟨?_, ih hs2⟩
          intro f hf
          rw [btInsert_mem k v rest hs2 f] at hf
          rcases hf with rfl | ⟨hf, _⟩
          · omega
          · exact hhead f hf

/-- The invariant of the bucket-building fold after processing the elements of
`processed`: the vector has `B` buckets; bucket `i` is key-sorted, carries
exactly the pairs `(hash, item)` of processed items hashing to index `i`, and
misses none of them. -/
def BucketInv (h : String → ℕ) (B : ℕ) (processed : List String)
    (bs : List (List (ℕ × String))) : Prop :=
  bs.length = B ∧
  ∀ i, i < B →
    KeySorted (bs.getD i []) ∧
    (∀ e ∈ bs.getD i [], e.1 = hKey h e.2 ∧ e.2 ∈ processed ∧ hKey h e.2 % B = i) ∧
    (∀ x ∈ processed, hKey h x % B = i → (hKey h x, x) ∈ bs.getD i [])

theorem getD_set_self (bs : List (List (ℕ × String))) (i : ℕ) (b : List (ℕ × String))
    (hi : i < bs.length) : (bs.set i b).getD i [] = b := by
  rw [List.getD_eq_getElem?_getD, List.getElem?_set_self hi]
  rfl

theorem getD_set_ne (bs : List (List (ℕ × String))) (i j : ℕ) (b : List (ℕ × String))
    (hij : i ≠ j) : (bs.set i b).getD j [] = bs.getD j [] := by
  rw [List.getD_eq_getElem?_getD, List.getElem?_set_ne hij, ← List.getD_eq_getElem?_getD]

theorem bucketInv_step (h : String → ℕ) (B : ℕ) (processed : List String)
    (bs : List (List (ℕ × String))) (x : String) (hB : 0 < B)
    (hinj : ∀ y ∈ processed, hKey h y = hKey h x → y = x)
    (hnm : x ∉ processed)
    (hinv : BucketInv h B processed bs) :
    bucketsStep h (some bs) x =
      some (bs.set (hKey h x % B) (btInsert (hKey h x) x (bs.getD (hKey h x % B) []))) ∧
    BucketInv h B (processed ++ [x])
      (bs.set (hKey h x % B) (btInsert (hKey h x) x (bs.getD (hKey h x % B) []))) := by
  obtain ⟨hlen, hbuckets⟩ := hinv
  have hBne : bs.length ≠ 0 := by omega
  have hidx : hKey h x % B < B := Nat.mod_lt _ hB
  constructor
  · simp only [bucketsStep, hlen]
    rw [if_neg (by omega : ¬ B = 0)]
  · refine ⟨by rw [List.length_set]; exact hlen, ?_⟩
    intro i hi
    obtain ⟨hsort, hfwd, hcomp⟩ := hbuckets i hi
    obtain ⟨hsortX, hfwdX, hcompX⟩ := hbuckets (hKey h x % B) hidx
    by_cases hieq : hKey h x % B = i
    · subst hieq
      rw [getD_set_self _ _ _ (by omega)]
      refine ⟨btInsert_keySorted _ _ _ hsort, ?_, ?_⟩
      · intro e he
        rw [btInsert_mem _ _ _ hsort] at he
        rcases he with rfl | ⟨he, hne⟩
        · exact ⟨rfl, List.mem_append_right _ (List.mem_singleton.mpr rfl), rfl⟩
        · obtain ⟨h1, h2, h3⟩ := hfwd e he
          exact ⟨h1, List.mem_append_left _ h2, h3⟩
      · intro y hy hmod
        rw [btInsert_mem _ _ _ hsort]
        rcases List.mem_append.mp hy with hyp | hyx
        · refine Or.inr ⟨hcomp y hyp hmod, ?_⟩
          intro hkeq
          exact hnm ((hinj y hyp hkeq) ▸ hyp)
        · rw [List.mem_singleton.mp hyx]
          exact Or.inl rfl
    · rw [getD_set_ne _ _ _ _ hieq]
      refine ⟨hsort, ?_, ?_⟩
      · intro e he
        obtain ⟨h1, h2, h3⟩ := hfwd e he
        exact ⟨h1, List.mem_append_left _ h2, h3⟩
      · intro y hy hmod
        rcases List.mem_append.mp hy with hyp | hyx
        · exact hcomp y hyp hmod
        · rw [List.mem_singleton.mp hyx] at hmod ⊢
          exact absurd hmod hieq

theorem bucketInv_fold (h : String → ℕ) (B : ℕ) :
    ∀ (l2 processed : List String) (bs : List (List (ℕ × String))),
      0 < B →
      (processed ++ l2).Nodup →
      (∀ y ∈ processed ++ l2, ∀ z ∈ processed ++ l2, hKey h y = hKey h z → y = z) →
      BucketInv h B processed bs →
      ∃ bs2, l2.foldl (bucketsStep h) (some bs) = some bs2 ∧
        BucketInv h B (processed ++ l2) bs2 := by
  intro l2
  induction l2 with
  | nil =>
      intro processed bs hB _ _ hinv
      exact ⟨bs, rfl, by simpa using hinv⟩
  | cons x rest ih =>
      intro processed bs hB hnodup hinj hinv
      have hxp : x ∉ processed := by
        rcases List.nodup_append.mp hnodup with ⟨_, _, hdisj⟩
        intro hmem
        exact hdisj hmem (List.mem_cons_self _ _)
      have hstep := bucketInv_step h B processed bs x hB
        (fun y hy hk => hinj y (List.mem_append_left _ hy)
          x (List.mem_append_right _ (List.mem_cons_self _ _)) hk)
        hxp hinv
      simp only [List.foldl_cons, hstep.1]
      have hassoc : (processed ++ [x]) ++ rest = processed ++ (x :: rest) := by
        rw [List.append_assoc, List.singleton_append]
      obtain ⟨bs2, hfold, hinv2⟩ := ih (processed ++ [x]) _ hB
        (by rw [hassoc]; exact hnodup)
        (by rw [hassoc]; exact hinj)
        hstep.2
      exact ⟨bs2, hfold, by rw [hassoc] at hinv2; exact hinv2⟩

theorem bucketInv_nil (h : String → ℕ) (B : ℕ) :
    BucketInv h B [] (List.replicate B []) := by
  refine ⟨List.length_replicate _ _, ?_⟩
  intro i hi
  have hrep : (List.replicate B ([] : List (ℕ × String))).getD i [] = [] := by
    rw [List.getD_eq_getElem?_getD, List.getElem?_replicate_of_lt hi]
    rfl
  rw [hrep]
  refine ⟨List.Pairwise.nil, ?_, ?_⟩
  · intro e he
    cases he
  · intro y hy
    cases hy

/-- With a positive bucket count the bucket build never panics, and the result
satisfies the fold invariant. -/
theorem buckets_spec (h : String → ℕ) (B : ℕ) (l : List String) (hB : 0 < B)
    (hnodup : l.Nodup)
    (hinj : ∀ y ∈ l, ∀ z ∈ l, hKey h y = hKey h z → y = z) :
    buckets h B l = some (bucketsOf h B l) ∧ BucketInv h B l (bucketsOf h B l) := by
  obtain ⟨bs2, hfold, hinv⟩ := bucketInv_fold h B l [] (List.replicate B []) hB
    (by simpa using hnodup) (by simpa using hinj) (bucketInv_nil h B)
  have heq : buckets h B l = some bs2 := hfold
  have : bucketsOf h B l = bs2 := by
    rw [bucketsOf, heq]
    rfl
  rw [this, heq]
  exact ⟨rfl, by simpa using hinv⟩

/-- With a positive bucket count the bucket build always succeeds and yields
`B` buckets (no hypotheses on the enumeration). -/
theorem buckets_isSome (h : String → ℕ) (B : ℕ) (l : List String) (hB : 0 < B) :
    buckets h B l = some (bucketsOf h B l) ∧ (bucketsOf h B l).length = B := by
  have hgo : ∀ (l2 : List String) (bs : List (List (ℕ × String))), bs.length = B →
      ∃ bs2, l2.foldl (bucketsStep h) (some bs) = some bs2 ∧ bs2.length = B := by
    intro l2
    induction l2 with
    | nil => intro bs hbs; exact ⟨bs, rfl, hbs⟩
    | cons x rest ih =>
        intro bs hbs
        have hne : bs.length ≠ 0 := by omega
        simp only [List.foldl_cons, bucketsStep, if_neg hne]
        exact ih _ (by rw [List.length_set]; exact hbs)
  obtain ⟨bs2, hfold, hlen⟩ := hgo l (List.replicate B []) (List.length_replicate _ _)
  have heq : buckets h B l = some bs2 := hfold
  have : bucketsOf h B l = bs2 := by
    rw [bucketsOf, heq]
    rfl
  rw [this, heq]
  exact ⟨rfl, hlen⟩

/-- Membership in an aggregated bucket is membership of some entry's item. -/
theorem aggregateBucket_mem (b : List (ℕ × String)) (x : String) :
    x ∈ aggregateBucket b ↔ ∃ e ∈ b, e.2 = x := by
  simp only [aggregateBucket, GSet.join_mem, Finset.not_mem_empty, false_or, List.mem_map]
  constructor
  · rintro ⟨d, ⟨e, he, rfl⟩, hx⟩
    exact ⟨e, he, (Finset.mem_singleton.mp hx).symm⟩
  · rintro ⟨e, he, rfl⟩
    exact ⟨{e.2}, ⟨e, he, rfl⟩, Finset.mem_singleton_self _⟩

theorem hashes_length (h : String → ℕ) (bs : List (List (ℕ × String))) :
    (hashes h bs).length = bs.length := List.length_map _ _

theorem matchings_length (h : String → ℕ) (B : ℕ) (lLoc lRem : List String) (hB : 0 < B) :
    (matchings h B lLoc lRem).length = B := by
  simp only [matchings, List.length_map, List.length_zip, hashes_length]
  rw [(buckets_isSome h B lLoc hB).2, (buckets_isSome h B lRem hB).2]
  omega

theorem nonMatchingBuckets_length (h : String → ℕ) (B : ℕ) (lLoc lRem : List String)
    (hB : 0 < B) : (nonMatchingBuckets h B lLoc lRem).length = B := by
  simp only [nonMatchingBuckets, List.length_map, List.length_zip]
  rw [(buckets_isSome h B lRem hB).2, matchings_length h B lLoc lRem hB]
  omega

/-- Unfolding `Buckets::sync` on a ready tracker with a positive bucket count:
the run succeeds and records exactly the three events of the protocol. -/
theorem sync_eq (h : String → ℕ) (B : ℕ) (lLoc lRem : List String) (t : DefaultTracker)
    (hB : 0 < B) (ht : t.isReady = true) :
    sync h B lLoc lRem t = some (
      GSet.join lLoc.toFinset (localUnseen h B lLoc lRem),
      GSet.join lRem.toFinset (remoteUnseen h B lLoc lRem),
      ⟨t.events ++ [.localToRemote (8 * B),
        .remoteToLocal (B + ((carried h B lLoc lRem).map GSet.sizeOf).sum),
        .localToRemote (((remoteUnseen h B lLoc lRem).map GSet.sizeOf).sum)],
       some (GSet.falseMatches (GSet.join lLoc.toFinset (localUnseen h B lLoc lRem))
         (GSet.join lRem.toFinset (remoteUnseen h B lLoc lRem)))⟩) := by
  have hdf : t.diffs = none := by
    have := ht
    simp only [DefaultTracker.isReady, Bool.and_eq_true, List.isEmpty_iff,
      Option.isNone_iff_eq_none] at this
    exact this.2
  have hsl : (buckets h B lLoc).isSome = true := by
    rw [(buckets_isSome h B lLoc hB).1]
    rfl
  have hsr : (buckets h B lRem).isSome = true := by
    rw [(buckets_isSome h B lRem hB).1]
    rfl
  have hhl : (hashes h (bucketsOf h B lLoc)).length = B := by
    rw [hashes_length, (buckets_isSome h B lLoc hB).2]
  simp only [sync, ht, if_true, hsl, hsr, Bool.and_self, hhl,
    nonMatchingBuckets_length h B lLoc lRem hB]
  simp only [DefaultTracker.register, DefaultTracker.finish, hdf, Option.isNone_none,
    if_true, List.append_assoc, List.cons_append, List.nil_append]

/-- C4 amended: the bucket-content reply is recorded with
`non_matching_buckets.len()` bytes — one byte per bucket slot, matching or
not, hence `B` in total — plus the aggregated payload sizes of the carried
buckets (not 8 bytes per included index); the final delta message records only
the payload sizes, with no index bytes at all. -/
theorem buckets_content_message_bytes (h : String → ℕ) (B : ℕ) (lLoc lRem : List String)
    (t : DefaultTracker) (hB : 0 < B) (ht : t.isReady = true) :
    ∃ loc2 rem2 d, sync h B lLoc lRem t = some (loc2, rem2,
      ⟨t.events ++ [.localToRemote (8 * B),
        .remoteToLocal (B + ((carried h B lLoc lRem).map GSet.sizeOf).sum),
        .localToRemote (((remoteUnseen h B lLoc lRem).map GSet.sizeOf).sum)],
       some d⟩) :=
  ⟨_, _, _, sync_eq h B lLoc lRem t hB ht⟩

/-- Under the fold invariant, membership in the aggregated bucket `i` is
exactly membership in the replica with hash index `i`. -/
theorem agg_getD_mem (h : String → ℕ) (B : ℕ) (l : List String) (hB : 0 < B)
    (hnodup : l.Nodup) (hinj : ∀ y ∈ l, ∀ z ∈ l, hKey h y = hKey h z → y = z)
    (i : ℕ) (hi : i < B) (x : String) :
    x ∈ aggregateBucket ((bucketsOf h B l).getD i []) ↔ x ∈ l ∧ hKey h x % B = i := by
  obtain ⟨-, hinv⟩ := buckets_spec h B l hB hnodup hinj
  obtain ⟨hsort, hfwd, hcomp⟩ := hinv.2 i hi
  rw [aggregateBucket_mem]
  constructor
  · rintro ⟨e, he, rfl⟩
    obtain ⟨-, h2, h3⟩ := hfwd e he
    exact ⟨h2, h3⟩
  · rintro ⟨hxl, hmod⟩
    exact ⟨(hKey h x, x), hcomp x hxl hmod, rfl⟩

/-- Every item aggregated from some bucket of a replica's build belongs to the
replica. -/
theorem agg_bucket_subset (h : String → ℕ) (B : ℕ) (l : List String) (hB : 0 < B)
    (hnodup : l.Nodup) (hinj : ∀ y ∈ l, ∀ z ∈ l, hKey h y = hKey h z → y = z)
    (b : List (ℕ × String)) (hb : b ∈ bucketsOf h B l) (x : String)
    (hx : x ∈ aggregateBucket b) : x ∈ l := by
  obtain ⟨-, hinv⟩ := buckets_spec h B l hB hnodup hinj
  obtain ⟨i, hi, hbi⟩ := List.mem_iff_getElem.mp hb
  have hiB : i < B := by
    rw [hinv.1] at hi
    exact hi
  obtain ⟨hsort, hfwd, hcomp⟩ := hinv.2 i hiB
  have hgd : (bucketsOf h B l).getD i [] = b := by
    rw [List.getD_eq_getElem _ _ hi, hbi]
  obtain ⟨e, he, rfl⟩ := (aggregateBucket_mem b x).mp hx
  exact (hfwd e (hgd ▸ he)).2.1

/-- Both components of every pair produced by step 3.1 are subsets of the
respective replicas. -/
theorem pairsOf_subsets (h : String → ℕ) (B : ℕ) (lLoc lRem : List String) (hB : 0 < B)
    (hnl : lLoc.Nodup) (hnr : lRem.Nodup)
    (hinjL : ∀ y ∈ lLoc, ∀ z ∈ lLoc, hKey h y = hKey h z → y = z)
    (hinjR : ∀ y ∈ lRem, ∀ z ∈ lRem, hKey h y = hKey h z → y = z)
    (p : Finset String × Finset String) (hp : p ∈ pairsOf h B lLoc lRem) :
    (∀ x ∈ p.1, x ∈ lLoc) ∧ (∀ x ∈ p.2, x ∈ lRem) := by
  obtain ⟨a, ha, hfa⟩ := List.mem_filterMap.mp hp
  obtain ⟨haL, haR⟩ := List.of_mem_zip ha
  obtain ⟨lo, hlo, hbind⟩ := Option.bind_eq_some.mp hfa
  obtain ⟨ro, hro, hpair⟩ := Option.map_eq_some'.mp hbind
  obtain ⟨bL, hbL, hbLa⟩ := List.mem_map.mp haL
  have hlo2 : lo = aggregateBucket bL := by
    rw [← hbLa] at hlo
    exact (Option.some_inj.mp hlo).symm
  obtain ⟨q, hq, hqa⟩ := List.mem_map.mp haR
  have hq1 : q.1 ∈ bucketsOf h B lRem := (List.of_mem_zip hq).1
  have hro2 : ro = aggregateBucket q.1 := by
    rw [← hqa] at hro
    by_cases hq2 : q.2
    · rw [if_pos hq2] at hro
      cases hro
    · rw [if_neg hq2] at hro
      exact (Option.some_inj.mp hro).symm
  subst hpair
  constructor
  · intro x hx
    exact agg_bucket_subset h B lLoc hB hnl hinjL bL hbL x (hlo2 ▸ hx)
  · intro x hx
    exact agg_bucket_subset h B lRem hB hnr hinjR q.1 hq1 x (hro2 ▸ hx)

/-- If the fingerprints of bucket `i` differ, step 3.1 produces the pair of
the two aggregated buckets at index `i`. -/
theorem pairsOf_hit (h : String → ℕ) (B : ℕ) (lLoc lRem : List String) (i : ℕ)
    (hB : 0 < B) (hi : i < B)
    (hne : hKey h (fingerprintString ((bucketsOf h B lLoc).getD i [])) ≠
      hKey h (fingerprintString ((bucketsOf h B lRem).getD i []))) :
    (aggregateBucket ((bucketsOf h B lLoc).getD i []),
      aggregateBucket ((bucketsOf h B lRem).getD i [])) ∈ pairsOf h B lLoc lRem := by
  have hlL : (bucketsOf h B lLoc).length = B := (buckets_isSome h B lLoc hB).2
  have hlR : (bucketsOf h B lRem).length = B := (buckets_isSome h B lRem hB).2
  have hiL : i < (bucketsOf h B lLoc).length := by omega
  have hiR : i < (bucketsOf h B lRem).length := by omega
  have hgL : (bucketsOf h B lLoc).getD i [] = (bucketsOf h B lLoc)[i] :=
    List.getD_eq_getElem _ _ hiL
  have hgR : (bucketsOf h B lRem).getD i [] = (bucketsOf h B lRem)[i] :=
    List.getD_eq_getElem _ _ hiR
  have him : i < (matchings h B lLoc lRem).length := by
    rw [matchings_length h B lLoc lRem hB]
    exact hi
  have hmval : (matchings h B lLoc lRem)[i] = false := by
    simp only [matchings, hashes, List.getElem_map, List.getElem_zip]
    rw [← hgL, ← hgR]
    exact beq_false_of_ne hne
  have hinm : i < (nonMatchingBuckets h B lLoc lRem).length := by
    rw [nonMatchingBuckets_length h B lLoc lRem hB]
    exact hi
  have hnmi : (nonMatchingBuckets h B lLoc lRem)[i] =
      some (aggregateBucket ((bucketsOf h B lRem).getD i [])) := by
    simp only [nonMatchingBuckets, List.getElem_map, List.getElem_zip, hmval,
      Bool.false_eq_true, if_false]
    rw [← hgR]
  apply List.mem_filterMap.mpr
  have hizip : i < (((bucketsOf h B lLoc).map fun b => some (aggregateBucket b)).zip
      (nonMatchingBuckets h B lLoc lRem)).length := by
    rw [List.length_zip, List.length_map]
    omega
  refine ⟨(((bucketsOf h B lLoc).map fun b => some (aggregateBucket b)).zip
      (nonMatchingBuckets h B lLoc lRem))[i], List.getElem_mem hizip, ?_⟩
  rw [List.getElem_zip, List.getElem_map, hnmi, ← hgL]
  rfl

end Buckets

/-- Witness for the amended C4 at a concrete input. -/
theorem buckets_content_message_bytes_witness :
    ∃ loc2 rem2 d, Buckets.sync charHash 2 [] ["a"] DefaultTracker.new = some (loc2, rem2,
      ⟨DefaultTracker.new.events ++ [.localToRemote (8 * 2),
        .remoteToLocal (2 + ((Buckets.carried charHash 2 [] ["a"]).map GSet.sizeOf).sum),
        .localToRemote (((Buckets.remoteUnseen charHash 2 [] ["a"]).map GSet.sizeOf).sum)],
       some d⟩) :=
  Buckets.buckets_content_message_bytes charHash 2 [] ["a"] DefaultTracker.new
    (by decide) (by decide)

/-- C2 amended: `Buckets::sync` converges exactly — post-sync both replicas
equal the union of the two pre-sync states and the latched `diffs` counter is
0 — provided the computed bucket count is at least 1 (it is 0, a panic, for
small `load_factor · |local|`), the shared hash is collision-free on the
elements, and matching bucket fingerprints imply identical bucket contents
(the spec's modelled hash assumption). -/
theorem buckets_sync_converges (h : String → ℕ) (B : ℕ) (lLoc lRem : List String)
    (t : DefaultTracker) (hB : 0 < B) (ht : t.isReady = true)
    (hnl : lLoc.Nodup) (hnr : lRem.Nodup)
    (hinj : ∀ y ∈ lLoc ++ lRem, ∀ z ∈ lLoc ++ lRem, hKey h y = hKey h z → y = z)
    (hfp : ∀ i, i < B →
      hKey h (Buckets.fingerprintString ((Buckets.bucketsOf h B lLoc).getD i [])) =
        hKey h (Buckets.fingerprintString ((Buckets.bucketsOf h B lRem).getD i [])) →
      (Buckets.bucketsOf h B lLoc).getD i [] = (Buckets.bucketsOf h B lRem).getD i []) :
    ∃ t2, Buckets.sync h B lLoc lRem t =
      some (lLoc.toFinset ∪ lRem.toFinset, lLoc.toFinset ∪ lRem.toFinset, t2) ∧
      t2.diffs = some 0 := by
  have hinjL : ∀ y ∈ lLoc, ∀ z ∈ lLoc, hKey h y = hKey h z → y = z := fun y hy z hz =>
    hinj y (List.mem_append_left _ hy) z (List.mem_append_left _ hz)
  have hinjR : ∀ y ∈ lRem, ∀ z ∈ lRem, hKey h y = hKey h z → y = z := fun y hy z hz =>
    hinj y (List.mem_append_right _ hy) z (List.mem_append_right _ hz)
  -- the pair of aggregated buckets at the index of any one-sided element
  have hpairx : ∀ x : String, x ∈ lLoc ∧ x ∉ lRem ∨ x ∈ lRem ∧ x ∉ lLoc →
      (Buckets.aggregateBucket ((Buckets.bucketsOf h B lLoc).getD (hKey h x % B) []),
        Buckets.aggregateBucket ((Buckets.bucketsOf h B lRem).getD (hKey h x % B) [])) ∈
        Buckets.pairsOf h B lLoc lRem := by
    intro x hx
    have hi : hKey h x % B < B := Nat.mod_lt _ hB
    have hbne : (Buckets.bucketsOf h B lLoc).getD (hKey h x % B) [] ≠
        (Buckets.bucketsOf h B lRem).getD (hKey h x % B) [] := by
      intro heq
      have haggL := Buckets.agg_getD_mem h B lLoc hB hnl hinjL (hKey h x % B) hi x
      have haggR := Buckets.agg_getD_mem h B lRem hB hnr hinjR (hKey h x % B) hi x
      rw [heq] at haggL
      rcases hx with ⟨hxi, hxo⟩ | ⟨hxi, hxo⟩
      · exact hxo (haggR.mp (haggL.mpr ⟨hxi, rfl⟩)).1
      · exact hxo (haggL.mp (haggR.mpr ⟨hxi, rfl⟩)).1
    exact Buckets.pairsOf_hit h B lLoc lRem (hKey h x % B) hB hi
      (fun hh => hbne (hfp (hKey h x % B) hi hh))
  have hloc : GSet.join lLoc.toFinset (Buckets.localUnseen h B lLoc lRem) =
      lLoc.toFinset ∪ lRem.toFinset := by
    apply Finset.ext
    intro x
    rw [GSet.join_mem, Finset.mem_union]
    constructor
    · rintro (hx | ⟨d, hd, hxd⟩)
      · exact Or.inl hx
      · obtain ⟨p, hp, rfl⟩ := List.mem_map.mp hd
        have hsub := (Buckets.pairsOf_subsets h B lLoc lRem hB hnl hnr hinjL hinjR p hp).2
        have hx2 : x ∈ p.2 := (Finset.mem_sdiff.mp hxd).1
        exact Or.inr (List.mem_toFinset.mpr (hsub x hx2))
    · intro hx
      by_cases hxl : x ∈ lLoc.toFinset
      · exact Or.inl hxl
      · rcases hx with hxL | hxR
        · exact absurd hxL hxl
        · have hxRl : x ∈ lRem := List.mem_toFinset.mp hxR
          have hxLl : x ∉ lLoc := fun hmem => hxl (List.mem_toFinset.mpr hmem)
          have hi : hKey h x % B < B := Nat.mod_lt _ hB
          have hpa := hpairx x (Or.inr ⟨hxRl, hxLl⟩)
          refine Or.inr ⟨_, List.mem_map.mpr ⟨_, hpa, rfl⟩, ?_⟩
          show x ∈ GSet.difference _ _
          rw [GSet.difference, Finset.mem_sdiff]
          constructor
          · exact (Buckets.agg_getD_mem h B lRem hB hnr hinjR _ hi x).mpr ⟨hxRl, rfl⟩
          · intro hmem
            exact hxLl ((Buckets.agg_getD_mem h B lLoc hB hnl hinjL _ hi x).mp hmem).1
  have hrem : GSet.join lRem.toFinset (Buckets.remoteUnseen h B lLoc lRem) =
      lLoc.toFinset ∪ lRem.toFinset := by
    apply Finset.ext
    intro x
    rw [GSet.join_mem, Finset.mem_union]
    constructor
    · rintro (hx | ⟨d, hd, hxd⟩)
      · exact Or.inr hx
      · obtain ⟨p, hp, rfl⟩ := List.mem_map.mp hd
        have hsub := (Buckets.pairsOf_subsets h B lLoc lRem hB hnl hnr hinjL hinjR p hp).1
        have hx1 : x ∈ p.1 := (Finset.mem_sdiff.mp hxd).1
        exact Or.inl (List.mem_toFinset.mpr (hsub x hx1))
    · intro hx
      by_cases hxr : x ∈ lRem.toFinset
      · exact Or.inl hxr
      · rcases hx with hxL | hxR
        · have hxLl : x ∈ lLoc := List.mem_toFinset.mp hxL
          have hxRl : x ∉ lRem := fun hmem => hxr (List.mem_toFinset.mpr hmem)
          have hi : hKey h x % B < B := Nat.mod_lt _ hB
          have hpa := hpairx x (Or.inl ⟨hxLl, hxRl⟩)
          refine Or.inr ⟨_, List.mem_map.mpr ⟨_, hpa, rfl⟩, ?_⟩
          show x ∈ GSet.difference _ _
          rw [GSet.difference, Finset.mem_sdiff]
          constructor
          · exact (Buckets.agg_getD_mem h B lLoc hB hnl hinjL _ hi x).mpr ⟨hxLl, rfl⟩
          · intro hmem
            exact hxRl ((Buckets.agg_getD_mem h B lRem hB hnr hinjR _ hi x).mp hmem).1
        · exact absurd hxR hxr
  have hs := Buckets.sync_eq h B lLoc lRem t hB ht
  rw [hloc, hrem] at hs
  refine ⟨_, hs, ?_⟩
  simp only [GSet.falseMatches_self]

/-- Witness for the amended C2 at a concrete input. -/
theorem buckets_sync_converges_witness :
    ∃ t2, Buckets.sync charHash 1 ["a"] ["b"] DefaultTracker.new =
      some ((["a"] : List String).toFinset ∪ (["b"] : List String).toFinset,
        (["a"] : List String).toFinset ∪ (["b"] : List String).toFinset, t2) ∧
      t2.diffs = some 0 :=
  buckets_sync_converges charHash 1 ["a"] ["b"] DefaultTracker.new
    (by decide) (by decide) (by decide) (by decide) (by decide) (by decide)

end Xp
